import Mathlib

/-!
Verification of the core logic of the Major/Minor Notes Quiz (`script.js`):
pitch-class arithmetic, triad construction, root-position voicing
reconstruction, question generation, scoring, the submit state guard, and
the all-or-nothing chord playback join.

JavaScript numeric semantics are embedded as follows: the `%` operator is
the truncated remainder (`Int.tmod`), `Math.floor(x / n)` on integers is
floor division (`Int.fdiv`), and `Math.round` rounds half toward positive
infinity (Mathlib's `round` on `ℚ`).  All pitch values in the program are
integers, so pitches are modelled as `Int`.
-/

namespace MMQuiz

/-- Triad quality: the strings `"major"` / `"minor"` of the source. -/
inductive Quality where
  | major
  | minor
deriving DecidableEq, Repr

/-- `pcFromPitch(p) = ((p % 12) + 12) % 12` (JS `%` is truncated remainder). -/
def pcFromPitch (p : Int) : Int := ((p.tmod 12) + 12).tmod 12

/-- `octFromPitch(p) = Math.floor(p / 12)` (floor division). -/
def octFromPitch (p : Int) : Int := p.fdiv 12

/-- `pitchFromPcOct(pc, oct) = oct * 12 + pc`. -/
def pitchFromPcOct (pc oct : Int) : Int := oct * 12 + pc

/-- `triadPcs(rootPc, quality)`: third is root plus 4 (major) or 3 (minor),
fifth is root plus 7, both reduced with JS `% 12`. -/
def triadPcs (rootPc : Int) (quality : Quality) : List Int :=
  let third := (rootPc + (if quality = Quality.major then 4 else 3)).tmod 12
  let fifth := (rootPc + 7).tmod 12
  [rootPc, third, fifth]

/-- The body of the `while` loop of `nextPitchAtOrAbove`: starting at `p`,
walk upward one semitone at a time until the pitch class is `want`.  The
fuel bound 12 is justified by `scanUp_spec`: a matching pitch always lies
within 12 consecutive semitones, so the loop never exhausts the fuel. -/
def scanUp (want : Int) : Nat → Int → Int
  | 0, p => p
  | fuel + 1, p => if pcFromPitch p = want then p else scanUp want fuel (p + 1)

/-- `nextPitchAtOrAbove(pc, minPitch)`: the smallest pitch at or above
`Math.max(0, Math.floor(minPitch))` whose pitch class is
`((pc % 12) + 12) % 12`, found by linear upward scan.  Every call site
passes an integer `minPitch`, so `Math.floor` is the identity here. -/
def nextPitchAtOrAbove (pc : Int) (minPitch : Int) : Int :=
  let want := ((pc.tmod 12) + 12).tmod 12
  scanUp want 12 (max 0 minPitch)

/-- `triadRootPositionPitches(rootPc, quality, rootOct)`. -/
def triadRootPositionPitches (rootPc : Int) (quality : Quality) (rootOct : Int) : List Int :=
  let rootPitch := pitchFromPcOct rootPc rootOct
  let thirdPitch := rootPitch + (if quality = Quality.major then 4 else 3)
  let fifthPitch := rootPitch + 7
  [rootPitch, thirdPitch, fifthPitch]

/-- `answeredRootPositionPitches(userPcs, rootOct)`: reconstruct absolute
pitches from the three optional pitch-class slots.  Array destructuring
`const [p0, p1, p2] = userPcs` reads `undefined` (modelled `none`) past the
end of the list. -/
def answeredRootPositionPitches (userPcs : List (Option Int)) (rootOct : Int) : List Int :=
  let p0 := userPcs.getD 0 none
  let p1 := userPcs.getD 1 none
  let p2 := userPcs.getD 2 none
  if p0 = none ∧ p1 = none ∧ p2 = none then []
  else
    let rootPitch : Option Int := p0.map (fun pc => pitchFromPcOct pc rootOct)
    let start := rootPitch.getD (pitchFromPcOct 0 rootOct)
    let first := match rootPitch with
      | none => nextPitchAtOrAbove (p0.getD 0) start
      | some r => r
    let third := p1.map (fun pc => nextPitchAtOrAbove pc (first + 1))
    let fifth := p2.map (fun pc => nextPitchAtOrAbove pc ((third.getD first) + 1))
    [some first, third, fifth].filterMap id

/-- `clampQuestions(n)`: `Number(n)` yields either a finite value (modelled
`some v`) or NaN or an infinity (modelled `none`, the default-to-18 path);
a finite value is rounded to the nearest integer (`Math.round`, half toward
positive infinity, Mathlib's `round`) and clamped into `[1, 30]`. -/
def clampQuestions (n : Option ℚ) : Int :=
  match n with
  | none => 18
  | some v => min 30 (max 1 (round v))

/-- One question record of the quiz session. -/
structure Question where
  id : String
  rootPc : Int
  quality : Quality
  correctPcs : List Int
  userPcs : List (Option Int)
  marks : Nat
deriving DecidableEq, Repr

/-- The 24-element pool `12 pitch classes × {major, minor}` built at the
top of `generateQuestions`, in construction order. -/
def triadPool : List (Int × Quality) :=
  (List.range 12).flatMap
    (fun rootPc => [((rootPc : Int), Quality.major), ((rootPc : Int), Quality.minor)])

/-- Swap the elements at positions `i` and `j` (the array-destructuring
swap `[pool[i], pool[j]] = [pool[j], pool[i]]`; both indices are always in
range at the call sites). -/
def swapIdx (l : List α) (i j : Nat) : List α :=
  match l[i]?, l[j]? with
  | some a, some b => (l.set i b).set j a
  | _, _ => l

/-- The Fisher–Yates loop `for (i = len-1; i > 0; i--)`; the random draw
`Math.floor(Math.random() * (i+1))` at index `i` is supplied by the oracle
`rand`, reduced mod `i+1` so that every oracle value denotes a valid draw
and every sequence of draws is denoted by some oracle. -/
def fyLoop (rand : Nat → Nat) : Nat → List α → List α
  | 0, l => l
  | i + 1, l => fyLoop rand i (swapIdx l (i + 1) (rand (i + 1) % (i + 2)))

/-- The `while (picked.length < target)` loop: draw `k` further elements
from the (shuffled) pool at the oracle-supplied uniformly random indices
`Math.floor(Math.random() * pool.length)`. -/
def extraDraws (rand : Nat → Nat) (pool : List α) : Nat → List α
  | 0 => []
  | k + 1 =>
    match pool[rand k % pool.length]? with
    | some a => a :: extraDraws rand pool k
    | none => extraDraws rand pool k

/-- The `(rootPc, quality)` pair sequence drawn by `generateQuestions`
before the records are built: shuffle the pool in place, slice the first
`min(target, pool.length)` entries, then top up from the shuffled pool
until `target` entries are drawn. -/
def drawnPairs (rand1 rand2 : Nat → Nat) (target : Nat) : List (Int × Quality) :=
  let pool := fyLoop rand1 (triadPool.length - 1) triadPool
  let picked := pool.take (min target pool.length)
  picked ++ extraDraws rand2 pool (target - picked.length)

/-- `generateQuestions(count)`: clamp the count, draw the pairs, and build
the question records with sequential ids `q1, q2, …`, `correctPcs` from
`triadPcs`, empty `userPcs` and zero `marks`.  `rand1` drives the shuffle
and `rand2` the top-up draws. -/
def generateQuestions (rand1 rand2 : Nat → Nat) (count : Option ℚ) : List Question :=
  (drawnPairs rand1 rand2 (clampQuestions count).toNat).mapIdx (fun idx q =>
    { id := "q" ++ toString (idx + 1)
      rootPc := q.1
      quality := q.2
      correctPcs := triadPcs q.1 q.2
      userPcs := [none, none, none]
      marks := 0 })

/-- The pair a question record was built from. -/
def pairOf (q : Question) : Int × Quality := (q.rootPc, q.quality)

/-! ### Scoring -/

/-- One slot of the marking loop:
`user[i] != null && user[i] === correct[i]`. -/
def slotHit (user : List (Option Int)) (correct : List Int) (i : Nat) : Bool :=
  match user.getD i none, correct[i]? with
  | some v, some c => v == c
  | _, _ => false

/-- The per-question mark: the `for (let i = 0; i < 3; i++)` loop adds one
mark for each hit slot. -/
def markQuestion (user : List (Option Int)) (correct : List Int) : Nat :=
  ((List.range 3).filter (fun i => slotHit user correct i)).length

/-- The aggregate state produced by `markAll`: the re-marked questions,
the running total, `max = questionCount * 3`, and the displayed percentage
`Math.round((total / max) * 1000) / 10` (exact rational arithmetic; the
operands are small enough that the JS doubles are exact up to the final
division, which the display formula performs on the rounded integer). -/
structure MarkReport where
  questions : List Question
  total : Nat
  maxMarks : Nat
  percentage : ℚ

/-- `markAll` without its DOM writes: mark every question, sum the marks,
and compute the summary figures. -/
def markAll (qs : List Question) : MarkReport :=
  let marked := qs.map (fun q => { q with marks := markQuestion q.userPcs q.correctPcs })
  let total := (marked.map (fun q => q.marks)).sum
  let maxMarks := qs.length * 3
  { questions := marked
    total := total
    maxMarks := maxMarks
    percentage := ((round ((total : ℚ) / (maxMarks : ℚ) * 1000) : ℤ) : ℚ) / 10 }

/-! ### Session state machine -/

/-- The mutable session `state` object (`started`, `submitted`,
`questions`; the DOM-only fields are not modelled). -/
structure GameState where
  started : Bool
  submitted : Bool
  questions : List Question
deriving DecidableEq, Repr

/-- The submit click handler:
`if (!state.started || state.submitted) return;` then
`validateBeforeSubmit()` (constantly true) and `markAll()`, which sets
`state.submitted = true` and stores the computed marks. -/
def submitClick (s : GameState) : GameState :=
  if !s.started || s.submitted then s
  else
    { s with
      submitted := true
      questions := (markAll s.questions).questions }

/-! ### Audio: all-or-nothing chord playback

The asynchronous fetch/decode outcome of `loadBuffer` is supplied by an
oracle `avail : String → Bool` (`true` models a successful fetch and
decode, `false` the null "missing" result); a decoded buffer is
identified by its sample URL.  `ensureAudioGraph` is assumed to return a
context (the capability-absent path makes every audio call a no-op and is
outside this claim).  The `alert` call and the scheduled voices are
recorded in the returned outcome; `playPitchesWindowed` reads and writes
no session state in the source. -/

/-- The `PC_TO_STEM` table. -/
def PC_TO_STEM (pc : Int) : Option String :=
  match pc with
  | 0 => some "c"
  | 1 => some "csharp"
  | 2 => some "d"
  | 3 => some "dsharp"
  | 4 => some "e"
  | 5 => some "f"
  | 6 => some "fsharp"
  | 7 => some "g"
  | 8 => some "gsharp"
  | 9 => some "a"
  | 10 => some "asharp"
  | 11 => some "b"
  | _ => none

/-- `getStemForPc(pc) = PC_TO_STEM[(pc + 12) % 12] || null`. -/
def getStemForPc (pc : Int) : Option String := PC_TO_STEM ((pc + 12).tmod 12)

/-- `noteUrl(stem, octaveNum)` with `AUDIO_DIR = "audio"`. -/
def noteUrl (stem : String) (octaveNum : Int) : String :=
  "audio" ++ "/" ++ stem ++ toString octaveNum ++ ".mp3"

/-- The `{ missingUrl, buffer }` result of `loadPitchBuffer`. -/
structure LoadResult where
  missingUrl : Option String
  buffer : Option String
deriving DecidableEq, Repr

/-- `loadPitchBuffer(pitch)`. -/
def loadPitchBuffer (avail : String → Bool) (pitch : Int) : LoadResult :=
  match getStemForPc (pcFromPitch pitch) with
  | none => { missingUrl := none, buffer := none }
  | some stem =>
    let url := noteUrl stem (octFromPitch pitch)
    if avail url then { missingUrl := none, buffer := some url }
    else { missingUrl := some url, buffer := none }

/-- The observable outcome of one `playPitchesWindowed` call: the alert
text (if any), the buffers scheduled as voices, and the returned Boolean. -/
structure PlayOutcome where
  alerted : Option String
  scheduled : List String
  returned : Bool
deriving DecidableEq, Repr

/-- `playPitchesWindowed(pitches)`: load every buffer, and if any result
carries a `missingUrl`, alert `Missing audio sample: <url>` and return
before any voice is scheduled; otherwise schedule one voice per buffer. -/
def playPitchesWindowed (avail : String → Bool) (pitches : List Int) : PlayOutcome :=
  let results := pitches.map (loadPitchBuffer avail)
  match results.find? (fun r => r.missingUrl.isSome) with
  | some r =>
    { alerted := r.missingUrl.map (fun u => "Missing audio sample: " ++ u)
      scheduled := []
      returned := false }
  | none =>
    let bufs := results.filterMap (fun r => r.buffer)
    if bufs.isEmpty then { alerted := none, scheduled := [], returned := false }
    else { alerted := none, scheduled := bufs, returned := true }

/-- The sample URL a pitch resolves to. -/
def pitchUrl (pitch : Int) : String :=
  noteUrl ((getStemForPc (pcFromPitch pitch)).getD "") (octFromPitch pitch)

/-! ### Arithmetic bridge lemmas -/

/-- JS truncated remainder by 12 is bounded below by -12. -/
theorem tmod_twelve_lower (p : Int) : -12 < p.tmod 12 := by
  rcases le_or_lt 0 p with h | h
  · have := Int.tmod_nonneg (a := p) 12 h
    omega
  · have h1 : p.tmod 12 = -((-p).tmod 12) := by
      rw [Int.tmod_def, Int.tmod_def, Int.neg_tdiv]
      ring
    have h2 : (-p).tmod 12 < 12 := Int.tmod_lt_of_pos (-p) (by norm_num)
    omega

/-- The double-`%` normalization of the source equals the mathematical
(Euclidean) remainder modulo 12. -/
theorem pcFromPitch_eq_emod (p : Int) : pcFromPitch p = p % 12 := by
  unfold pcFromPitch
  have hlo : -12 < p.tmod 12 := tmod_twelve_lower p
  have hge : (0 : Int) ≤ p.tmod 12 + 12 := by omega
  rw [Int.tmod_eq_emod hge (by norm_num)]
  have ht : p.tmod 12 = p - 12 * p.tdiv 12 := Int.tmod_def p 12
  rw [ht]
  have hre : p - 12 * p.tdiv 12 + 12 = p + 12 * (1 - p.tdiv 12) := by ring
  rw [hre, Int.add_mul_emod_self_left]

theorem pcFromPitch_nonneg (p : Int) : 0 ≤ pcFromPitch p := by
  rw [pcFromPitch_eq_emod]
  omega

theorem pcFromPitch_lt_twelve (p : Int) : pcFromPitch p < 12 := by
  rw [pcFromPitch_eq_emod]
  omega

theorem octFromPitch_eq_ediv (p : Int) : octFromPitch p = p / 12 :=
  Int.fdiv_eq_ediv p (by norm_num)

/-- C4: for every integer pitch `p`, `pcFromPitch p` lies in `[0, 11]`,
`octFromPitch p` is the floor of `p / 12`, and
`pitchFromPcOct (pcFromPitch p) (octFromPitch p) = p`. -/
theorem C4_pitch_class_octave_roundtrip (p : Int) :
    0 ≤ pcFromPitch p ∧ pcFromPitch p ≤ 11 ∧
    octFromPitch p = ⌊(p : ℚ) / 12⌋ ∧
    pitchFromPcOct (pcFromPitch p) (octFromPitch p) = p := by
  have h1 := pcFromPitch_nonneg p
  have h2 := pcFromPitch_lt_twelve p
  have h3 := pcFromPitch_eq_emod p
  have h4 := octFromPitch_eq_ediv p
  refine ⟨h1, by omega, ?_, ?_⟩
  · rw [h4, show ((12 : ℚ)) = ((12 : ℕ) : ℚ) by norm_num,
      Rat.floor_intCast_div_natCast]
    norm_num
  · unfold pitchFromPcOct
    rw [h3, h4]
    omega

/-- C4 witness at `p = -13`. -/
theorem C4_pitch_class_octave_roundtrip_witness :
    pitchFromPcOct (pcFromPitch (-13)) (octFromPitch (-13)) = -13 :=
  (C4_pitch_class_octave_roundtrip (-13)).2.2.2

/-- C5: for a root pitch class in `[0, 11]` and either quality, `triadPcs`
returns exactly the three-element list `[root, third, fifth]` with
`third = (root + 4 or 3) mod 12` matching the quality and
`fifth = (root + 7) mod 12` (mathematical mod, which agrees with the JS
`%` on these non-negative operands). -/
theorem C5_triadPcs_intervals (root : Int) (q : Quality)
    (h0 : 0 ≤ root) (h1 : root ≤ 11) :
    (triadPcs root q).length = 3 ∧
    triadPcs root q =
      [root, (root + (if q = Quality.major then 4 else 3)) % 12, (root + 7) % 12] := by
  have hthird : (root + (if q = Quality.major then 4 else 3)).tmod 12 =
      (root + (if q = Quality.major then 4 else 3)) % 12 := by
    apply Int.tmod_eq_emod _ (by norm_num)
    rcases q with _ | _ <;> simp <;> omega
  have hfifth : (root + 7).tmod 12 = (root + 7) % 12 :=
    Int.tmod_eq_emod (by omega) (by norm_num)
  refine ⟨rfl, ?_⟩
  simp only [triadPcs, hthird, hfifth]

/-- C5 witness at root 0, major: C major is `[0, 4, 7]`. -/
theorem C5_triadPcs_intervals_witness :
    triadPcs 0 Quality.major = [0, (0 + 4) % 12, (0 + 7) % 12] := by
  have h := C5_triadPcs_intervals 0 Quality.major (by norm_num) (by norm_num)
  simpa using h.2

/-! ### The upward scan -/

/-- Within any 12 consecutive pitches there is one with any given pitch
class in `[0, 12)`. -/
theorem exists_scan_hit (want p : Int) (h0 : 0 ≤ want) (h1 : want < 12) :
    ∃ k : Nat, k < 12 ∧ pcFromPitch (p + k) = want := by
  refine ⟨((want - p) % 12).toNat, ?_, ?_⟩
  · omega
  · rw [pcFromPitch_eq_emod]
    have h2 : (0 : Int) ≤ (want - p) % 12 := by omega
    have h3 : (((want - p) % 12).toNat : Int) = (want - p) % 12 :=
      Int.toNat_of_nonneg h2
    rw [h3]
    omega

/-- The scan loop, given enough fuel to reach a match, returns the least
pitch at or above its starting point whose pitch class is `want`. -/
theorem scanUp_spec (want : Int) :
    ∀ (fuel : Nat) (p : Int),
      (∃ k : Nat, k < fuel ∧ pcFromPitch (p + k) = want) →
      p ≤ scanUp want fuel p ∧
      pcFromPitch (scanUp want fuel p) = want ∧
      ∀ q : Int, p ≤ q → pcFromPitch q = want → scanUp want fuel p ≤ q
  | 0, p, h => absurd h (by simp)
  | fuel + 1, p, h => by
    by_cases hp : pcFromPitch p = want
    · simp only [scanUp, if_pos hp]
      exact ⟨le_refl p, hp, fun q hq _ => hq⟩
    · simp only [scanUp, if_neg hp]
      obtain ⟨k, hk, hpk⟩ := h
      have hk0 : k ≠ 0 := by
        rintro rfl
        simp only [Nat.cast_zero, add_zero] at hpk
        exact hp hpk
      obtain ⟨k', rfl⟩ := Nat.exists_eq_succ_of_ne_zero hk0
      have hex : ∃ k : Nat, k < fuel ∧ pcFromPitch (p + 1 + k) = want := by
        refine ⟨k', by omega, ?_⟩
        have hsh : p + 1 + (k' : Int) = p + ((k' + 1 : Nat) : Int) := by
          push_cast
          ring
        rw [hsh]
        exact hpk
      obtain ⟨hge, hpc, hmin⟩ := scanUp_spec want fuel (p + 1) hex
      refine ⟨by omega, hpc, ?_⟩
      intro q hq hqpc
      rcases eq_or_lt_of_le hq with rfl | h'
      · exact absurd hqpc hp
      · exact hmin q (by omega) hqpc

/-- Full specification of `nextPitchAtOrAbove`: its result is the least
pitch at or above `max 0 minPitch` with the pitch class of `pc`, and it
lies within 12 semitones of that floor. -/
theorem nextPitchAtOrAbove_spec (pc m : Int) :
    max 0 m ≤ nextPitchAtOrAbove pc m ∧
    pcFromPitch (nextPitchAtOrAbove pc m) = pcFromPitch pc ∧
    nextPitchAtOrAbove pc m < max 0 m + 12 ∧
    ∀ q : Int, max 0 m ≤ q → pcFromPitch q = pcFromPitch pc →
      nextPitchAtOrAbove pc m ≤ q := by
  have h0 := pcFromPitch_nonneg pc
  have h1 := pcFromPitch_lt_twelve pc
  obtain ⟨k, hk12, hkpc⟩ := exists_scan_hit (pcFromPitch pc) (max 0 m) h0 h1
  obtain ⟨hge, hpc, hmin⟩ :=
    scanUp_spec (pcFromPitch pc) 12 (max 0 m) ⟨k, hk12, hkpc⟩
  have hdef : nextPitchAtOrAbove pc m = scanUp (pcFromPitch pc) 12 (max 0 m) := rfl
  rw [hdef]
  refine ⟨hge, hpc, ?_, hmin⟩
  have hb := hmin (max 0 m + k) (by omega) hkpc
  omega

theorem nextPitchAtOrAbove_ge (pc m : Int) : m ≤ nextPitchAtOrAbove pc m :=
  le_trans (le_max_right 0 m) (nextPitchAtOrAbove_spec pc m).1

/-- C10: the linear scan terminates for every input (it needs at most 12
steps) and computes the least pitch at or above `max 0 minPitch` whose
pitch class is `((pc % 12) + 12) % 12`; the result is below that floor
plus 12, and a negative `minPitch` scans from pitch 0. -/
theorem C10_nextPitchAtOrAbove_least (pc m : Int) :
    max 0 m ≤ nextPitchAtOrAbove pc m ∧
    nextPitchAtOrAbove pc m < max 0 m + 12 ∧
    pcFromPitch (nextPitchAtOrAbove pc m) = ((pc.tmod 12) + 12).tmod 12 ∧
    (∀ q : Int, max 0 m ≤ q → pcFromPitch q = ((pc.tmod 12) + 12).tmod 12 →
      nextPitchAtOrAbove pc m ≤ q) ∧
    (m < 0 → nextPitchAtOrAbove pc m = nextPitchAtOrAbove pc 0) := by
  obtain ⟨hge, hpc, hlt, hmin⟩ := nextPitchAtOrAbove_spec pc m
  refine ⟨hge, hlt, hpc, hmin, ?_⟩
  intro hm
  have hmax : max 0 m = max 0 (0 : Int) := by omega
  show scanUp (pcFromPitch pc) 12 (max 0 m) =
    scanUp (pcFromPitch pc) 12 (max 0 (0 : Int))
  rw [hmax]

/-- C10 witness: scanning for pitch class 4 from floor 49 yields 52. -/
theorem C10_nextPitchAtOrAbove_least_witness :
    nextPitchAtOrAbove 4 49 ≤ 52 :=
  (C10_nextPitchAtOrAbove_least 4 49).2.2.2.1 52 (by norm_num) (by decide)

/-! ### Voicing reconstruction -/

/-- C7: the reconstructed voicing is strictly ascending for every input
(in particular for every answer with at least one present slot), and the
complete in-order C major answer at root octave 4 reconstructs to exactly
`[pitchFrom(0,4), pitchFrom(4,4), pitchFrom(7,4)]`. -/
theorem C7_answered_strictly_ascending :
    (∀ (p0 p1 p2 : Option Int) (oct : Int),
      List.Chain' (fun a b => a < b)
        (answeredRootPositionPitches [p0, p1, p2] oct)) ∧
    answeredRootPositionPitches [some 0, some 4, some 7] 4 =
      [pitchFromPcOct 0 4, pitchFromPcOct 4 4, pitchFromPcOct 7 4] := by
  constructor
  · intro p0 p1 p2 oct
    rcases p0 with _ | a <;> rcases p1 with _ | b <;> rcases p2 with _ | c <;>
      simp [answeredRootPositionPitches, List.chain'_cons]
    all_goals
      first
      | exact lt_of_lt_of_le (by omega) (nextPitchAtOrAbove_ge _ _)
      | exact ⟨lt_of_lt_of_le (by omega) (nextPitchAtOrAbove_ge _ _),
          lt_of_lt_of_le (by omega) (nextPitchAtOrAbove_ge _ _)⟩
  · decide

/-- C1 counterexample: for `userPcs = [null, 4, 7]` at root octave 4 the
code returns three pitches, not two, and the first of them equals the scan
floor `pitchFrom(0, 4) = 48` rather than exceeding it: a pitch is
reconstructed even for the absent slot 0. -/
theorem C1_counterexample :
    answeredRootPositionPitches [none, some 4, some 7] 4 = [48, 52, 55] ∧
    ¬((answeredRootPositionPitches [none, some 4, some 7] 4).length = 2) ∧
    ¬(∀ x ∈ answeredRootPositionPitches [none, some 4, some 7] 4,
        pitchFromPcOct 0 4 < x) := by
  decide

/-- C1 (amended): if all three slots are absent the result is empty;
otherwise the result contains one pitch for slot 0 — reconstructed from
pitch class 0 at the scan floor when slot 0 is absent — followed by the
pitches of the present slots among 1 and 2, in slot order; in particular
`userPcs = [null, 4, 7]` at root octave 4 yields the three ascending
pitches `[pitchFrom(0,4), 52, 55]`, the first equal to the scan floor. -/
theorem C1_amended_reconstruction (p0 p1 p2 : Option Int) (oct : Int) :
    answeredRootPositionPitches [none, none, none] oct = [] ∧
    (¬(p0 = none ∧ p1 = none ∧ p2 = none) →
      (answeredRootPositionPitches [p0, p1, p2] oct).length =
        1 + (if p1 = none then 0 else 1) + (if p2 = none then 0 else 1)) ∧
    answeredRootPositionPitches [none, some 4, some 7] 4 =
      [pitchFromPcOct 0 4, 52, 55] := by
  refine ⟨by simp [answeredRootPositionPitches], ?_, by decide⟩
  intro h
  rcases p0 with _ | a <;> rcases p1 with _ | b <;> rcases p2 with _ | c <;>
    simp_all [answeredRootPositionPitches]

/-- C1 amended witness at `[null, 4, 7]`, octave 4. -/
theorem C1_amended_reconstruction_witness :
    (answeredRootPositionPitches [none, some 4, some 7] 4).length = 1 + 1 + 1 := by
  have h := (C1_amended_reconstruction none (some 4) (some 7) 4).2.1 (by simp)
  simpa using h

/-! ### Question generation -/

/-- C6: the question-count clamp maps every input to an integer in
`[1, 30]`: non-finite inputs default to 18, finite inputs are rounded to
the nearest integer and clamped, so 0 and negative counts yield 1 and 100
yields 30. -/
theorem C6_clampQuestions_range :
    (∀ n : Option ℚ, 1 ≤ clampQuestions n ∧ clampQuestions n ≤ 30) ∧
    clampQuestions none = 18 ∧
    (∀ v : ℚ, clampQuestions (some v) = min 30 (max 1 (round v))) ∧
    (∀ v : ℚ, v ≤ 0 → clampQuestions (some v) = 1) ∧
    clampQuestions (some 0) = 1 ∧
    clampQuestions (some 100) = 30 := by
  refine ⟨?_, rfl, fun v => rfl, ?_, ?_, ?_⟩
  · rintro (_ | v)
    · exact ⟨by norm_num [clampQuestions], by norm_num [clampQuestions]⟩
    · unfold clampQuestions
      constructor <;> simp [le_min_iff, min_le_iff]
  · intro v hv
    have hr : round v ≤ 0 := by
      rw [round_eq]
      have h1 : v + 1 / 2 ≤ (0 : ℚ) + 1 / 2 := by linarith
      have h2 := Int.floor_le_floor h1
      have h3 : ⌊(0 : ℚ) + 1 / 2⌋ = 0 := by norm_num
      omega
    simp only [clampQuestions]
    omega
  · norm_num [clampQuestions]
  · have h100 : round (100 : ℚ) = 100 := by norm_num
    simp [clampQuestions, h100]

/-- C6 witness: a negative count clamps to 1. -/
theorem C6_clampQuestions_range_witness : clampQuestions (some (-5)) = 1 :=
  C6_clampQuestions_range.2.2.2.1 (-5) (by norm_num)

/-! ### Shuffle facts -/

theorem swapIdx_perm [DecidableEq α] (l : List α) (i j : Nat) :
    List.Perm (swapIdx l i j) l := by
  unfold swapIdx
  split
  case h_2 => exact List.Perm.refl l
  case h_1 a b hi hj =>
  obtain ⟨hi', hia⟩ := List.getElem?_eq_some_iff.mp hi
  obtain ⟨hj', hjb⟩ := List.getElem?_eq_some_iff.mp hj
  rw [List.perm_iff_count]
  intro x
  have hjlen : j < (l.set i b).length := by simpa using hj'
  rw [List.count_set a x (l.set i b) j hjlen, List.count_set b x l i hi']
  rw [List.getElem_set, hjb]
  simp only [ite_self]
  by_cases hax : a = x
  · have hmem : x ∈ l := by
      rw [← hax, ← hia]
      exact List.getElem_mem hi'
    have hpos : 0 < List.count x l := List.count_pos_iff.mpr hmem
    by_cases hbx : b = x <;> simp [hia, hax, hbx] <;> omega
  · by_cases hbx : b = x <;> simp [hia, hax, hbx]

theorem fyLoop_perm [DecidableEq α] (rand : Nat → Nat) :
    ∀ (n : Nat) (l : List α), List.Perm (fyLoop rand n l) l
  | 0, l => List.Perm.refl l
  | n + 1, l =>
    List.Perm.trans (fyLoop_perm rand n _) (swapIdx_perm l _ _)

theorem triadPool_length : triadPool.length = 24 := by decide

theorem triadPool_nodup : triadPool.Nodup := by decide

theorem shuffled_perm (rand : Nat → Nat) :
    List.Perm (fyLoop rand (triadPool.length - 1) triadPool) triadPool :=
  fyLoop_perm rand _ triadPool

theorem shuffled_length (rand : Nat → Nat) :
    (fyLoop rand (triadPool.length - 1) triadPool).length = 24 :=
  (shuffled_perm rand).length_eq.trans triadPool_length

theorem shuffled_nodup (rand : Nat → Nat) :
    (fyLoop rand (triadPool.length - 1) triadPool).Nodup :=
  (shuffled_perm rand).nodup_iff.mpr triadPool_nodup

theorem extraDraws_length (rand : Nat → Nat) (pool : List α) (h : pool ≠ []) :
    ∀ k : Nat, (extraDraws rand pool k).length = k
  | 0 => rfl
  | k + 1 => by
    have hlt : rand k % pool.length < pool.length :=
      Nat.mod_lt _ (List.length_pos.mpr h)
    simp only [extraDraws, List.getElem?_eq_getElem hlt, List.length_cons]
    rw [extraDraws_length rand pool h k]

theorem extraDraws_mem (rand : Nat → Nat) (pool : List α) :
    ∀ (k : Nat) (x : α), x ∈ extraDraws rand pool k → x ∈ pool
  | 0, x, hx => absurd hx (by simp [extraDraws])
  | k + 1, x, hx => by
    revert hx
    unfold extraDraws
    rcases hg : pool[rand k % pool.length]? with _ | a
    · exact extraDraws_mem rand pool k x
    · intro hx
      rcases List.mem_cons.mp hx with rfl | hx'
      · obtain ⟨hlt, he⟩ := List.getElem?_eq_some_iff.mp hg
        rw [← he]
        exact List.getElem_mem hlt
      · exact extraDraws_mem rand pool k x hx'

theorem drawnPairs_length (r1 r2 : Nat → Nat) (t : Nat) :
    (drawnPairs r1 r2 t).length = t := by
  unfold drawnPairs
  have hlen := shuffled_length r1
  have hne : fyLoop r1 (triadPool.length - 1) triadPool ≠ [] := by
    apply List.length_pos.mp
    omega
  simp only [List.length_append, List.length_take, hlen,
    extraDraws_length r2 _ hne]
  omega

theorem drawnPairs_picked_length (r1 : Nat → Nat) (t : Nat) :
    ((fyLoop r1 (triadPool.length - 1) triadPool).take
      (min t (fyLoop r1 (triadPool.length - 1) triadPool).length)).length =
      min t 24 := by
  simp [List.length_take, shuffled_length r1]

theorem drawnPairs_take (r1 r2 : Nat → Nat) (t : Nat) :
    (drawnPairs r1 r2 t).take (min t 24) =
      (fyLoop r1 (triadPool.length - 1) triadPool).take
        (min t (fyLoop r1 (triadPool.length - 1) triadPool).length) := by
  unfold drawnPairs
  rw [← drawnPairs_picked_length r1 t, List.take_left]

theorem drawnPairs_take_nodup (r1 r2 : Nat → Nat) (t : Nat) :
    ((drawnPairs r1 r2 t).take (min t 24)).Nodup := by
  rw [drawnPairs_take]
  exact List.Nodup.sublist (List.take_sublist _ _) (shuffled_nodup r1)

theorem drawnPairs_perm_of_24 (r1 r2 : Nat → Nat) :
    List.Perm (drawnPairs r1 r2 24) triadPool := by
  have hperm := shuffled_perm r1
  have hlen := shuffled_length r1
  unfold drawnPairs
  generalize hg : fyLoop r1 (triadPool.length - 1) triadPool = pool at hperm hlen ⊢
  dsimp only
  rw [hlen]
  have h1 : min 24 24 = 24 := by norm_num
  rw [h1]
  have h2 : pool.take 24 = pool := List.take_of_length_le (by omega)
  rw [h2]
  have h3 : 24 - pool.length = 0 := by omega
  rw [h3]
  have h4 : extraDraws r2 pool 0 = [] := rfl
  rw [h4, List.append_nil]
  exact hperm

theorem drawnPairs_take_24_perm_of_30 (r1 r2 : Nat → Nat) :
    List.Perm ((drawnPairs r1 r2 30).take 24) triadPool := by
  have h := drawnPairs_take r1 r2 30
  have hmin : min 30 24 = 24 := by norm_num
  rw [hmin] at h
  rw [h]
  have hperm := shuffled_perm r1
  have hlen := shuffled_length r1
  generalize hg : fyLoop r1 (triadPool.length - 1) triadPool = pool at hperm hlen ⊢
  have h1 : min 30 pool.length = 24 := by omega
  rw [h1]
  have h2 : pool.take 24 = pool := List.take_of_length_le (by omega)
  rw [h2]
  exact hperm

theorem drawnPairs_drop_mem (r1 r2 : Nat → Nat) (t : Nat) :
    ∀ x ∈ (drawnPairs r1 r2 t).drop (min t 24), x ∈ triadPool := by
  have hperm := shuffled_perm r1
  have hlen := shuffled_length r1
  unfold drawnPairs
  generalize hg : fyLoop r1 (triadPool.length - 1) triadPool = pool at hperm hlen ⊢
  dsimp only
  have hpl : (pool.take (min t pool.length)).length = min t 24 := by
    rw [List.length_take]
    omega
  rw [← hpl, List.drop_left]
  intro x hx
  have hp := extraDraws_mem r2 pool _ x hx
  exact hperm.mem_iff.mp hp

/-! ### Question-record facts -/

theorem clampQuestions_pos (n : Option ℚ) : 1 ≤ clampQuestions n := by
  rcases n with _ | v <;> simp [clampQuestions, le_min_iff]

theorem clampQuestions_le_30 (n : Option ℚ) : clampQuestions n ≤ 30 := by
  rcases n with _ | v <;> simp [clampQuestions, min_le_iff]

theorem clampQuestions_24 : (clampQuestions (some 24)).toNat = 24 := by
  have hr : round (24 : ℚ) = 24 := by
    rw [show (24 : ℚ) = ((24 : ℕ) : ℚ) by norm_num, round_natCast]
    norm_num
  simp [clampQuestions, hr]

theorem clampQuestions_30 : (clampQuestions (some 30)).toNat = 30 := by
  have hr : round (30 : ℚ) = 30 := by
    rw [show (30 : ℚ) = ((30 : ℕ) : ℚ) by norm_num, round_natCast]
    norm_num
  simp [clampQuestions, hr]

theorem generateQuestions_map_pairOf (r1 r2 : Nat → Nat) (c : Option ℚ) :
    (generateQuestions r1 r2 c).map pairOf =
      drawnPairs r1 r2 (clampQuestions c).toNat := by
  unfold generateQuestions
  rw [List.mapIdx_eq_enum_map, List.map_map]
  have hfun : (pairOf ∘ Function.uncurry fun idx q =>
      ({ id := "q" ++ toString (idx + 1), rootPc := q.1, quality := q.2,
         correctPcs := triadPcs q.1 q.2, userPcs := [none, none, none],
         marks := 0 } : Question)) = Prod.snd := by
    funext p
    simp [pairOf, Function.uncurry]
  rw [hfun, List.enum_map_snd]

theorem generateQuestions_length (r1 r2 : Nat → Nat) (c : Option ℚ) :
    (generateQuestions r1 r2 c).length = (clampQuestions c).toNat := by
  unfold generateQuestions
  rw [List.length_mapIdx, drawnPairs_length]

theorem generateQuestions_map_id (r1 r2 : Nat → Nat) (c : Option ℚ) :
    (generateQuestions r1 r2 c).map (fun q => q.id) =
      (List.range (clampQuestions c).toNat).map (fun i => "q" ++ toString (i + 1)) := by
  unfold generateQuestions
  rw [List.mapIdx_eq_enum_map, List.map_map]
  have hfun : ((fun q : Question => q.id) ∘
      Function.uncurry fun (idx : Nat) (q : Int × Quality) =>
      ({ id := "q" ++ toString (idx + 1), rootPc := q.1, quality := q.2,
         correctPcs := triadPcs q.1 q.2, userPcs := [none, none, none],
         marks := 0 } : Question)) =
      (fun i => "q" ++ toString (i + 1)) ∘ Prod.fst := by
    funext p
    rfl
  rw [hfun, ← List.map_map, List.enum_map_fst, drawnPairs_length]

theorem qIds_nodup_30 :
    ((List.range 30).map (fun i => "q" ++ toString (i + 1))).Nodup := by decide

theorem generateQuestions_ids_nodup (r1 r2 : Nat → Nat) (c : Option ℚ) :
    ((generateQuestions r1 r2 c).map (fun q => q.id)).Nodup := by
  rw [generateQuestions_map_id]
  have hle : (clampQuestions c).toNat ≤ 30 := by
    have h := clampQuestions_le_30 c
    omega
  have hmin : min (clampQuestions c).toNat 30 = (clampQuestions c).toNat := by
    omega
  have heq : (List.range (clampQuestions c).toNat).map
      (fun i => "q" ++ toString (i + 1)) =
      (((List.range 30).map (fun i => "q" ++ toString (i + 1))).take
        (clampQuestions c).toNat) := by
    rw [← List.map_take, List.take_range, hmin]
  rw [heq]
  exact List.Nodup.sublist (List.take_sublist _ _) qIds_nodup_30

theorem generateQuestions_fields (r1 r2 : Nat → Nat) (c : Option ℚ) :
    ∀ q ∈ generateQuestions r1 r2 c,
      q.correctPcs = triadPcs q.rootPc q.quality ∧
      q.userPcs = [none, none, none] ∧ q.marks = 0 := by
  intro q hq
  unfold generateQuestions at hq
  rw [List.mapIdx_eq_enum_map, List.mem_map] at hq
  obtain ⟨⟨i, a⟩, _, rfl⟩ := hq
  exact ⟨rfl, rfl, rfl⟩

/-- C3: for every outcome of the shuffle and top-up draws, the clamped
count `N` of question records is produced; the first `min(N, 24)` records
have pairwise distinct `(rootPc, quality)` pairs; with `N = 24` the pairs
are a permutation of the whole 24-pair pool; with `N = 30` there are 30
records whose first 24 pairs are a permutation of the pool and whose later
pairs all come from the pool (so duplicates occur only there); ids are the
unique sequential `q1, q2, …`, `correctPcs` is built by `triadPcs`, all
`userPcs` slots are absent and `marks` is 0. -/
theorem C3_generateQuestions_complete :
    (∀ (r1 r2 : Nat → Nat) (c : Option ℚ),
      (generateQuestions r1 r2 c).length = (clampQuestions c).toNat) ∧
    (∀ (r1 r2 : Nat → Nat) (c : Option ℚ),
      (((generateQuestions r1 r2 c).take
        (min (clampQuestions c).toNat 24)).map pairOf).Nodup) ∧
    (∀ r1 r2 : Nat → Nat,
      List.Perm ((generateQuestions r1 r2 (some 24)).map pairOf) triadPool) ∧
    (∀ r1 r2 : Nat → Nat,
      (generateQuestions r1 r2 (some 30)).length = 30 ∧
      List.Perm (((generateQuestions r1 r2 (some 30)).take 24).map pairOf)
        triadPool ∧
      (∀ q ∈ (generateQuestions r1 r2 (some 30)).drop 24,
        pairOf q ∈ triadPool)) ∧
    (∀ (r1 r2 : Nat → Nat) (c : Option ℚ),
      (generateQuestions r1 r2 c).map (fun q => q.id) =
        (List.range (clampQuestions c).toNat).map
          (fun i => "q" ++ toString (i + 1)) ∧
      ((generateQuestions r1 r2 c).map (fun q => q.id)).Nodup) ∧
    (∀ (r1 r2 : Nat → Nat) (c : Option ℚ),
      ∀ q ∈ generateQuestions r1 r2 c,
        q.correctPcs = triadPcs q.rootPc q.quality ∧
        q.userPcs = [none, none, none] ∧ q.marks = 0) := by
  refine ⟨generateQuestions_length, ?_, ?_, ?_,
    fun r1 r2 c => ⟨generateQuestions_map_id r1 r2 c,
      generateQuestions_ids_nodup r1 r2 c⟩,
    generateQuestions_fields⟩
  · intro r1 r2 c
    rw [List.map_take, generateQuestions_map_pairOf]
    exact drawnPairs_take_nodup r1 r2 _
  · intro r1 r2
    rw [generateQuestions_map_pairOf, clampQuestions_24]
    exact drawnPairs_perm_of_24 r1 r2
  · intro r1 r2
    refine ⟨?_, ?_, ?_⟩
    · rw [generateQuestions_length, clampQuestions_30]
    · rw [List.map_take, generateQuestions_map_pairOf, clampQuestions_30]
      exact drawnPairs_take_24_perm_of_30 r1 r2
    · intro q hq
      have hx : pairOf q ∈ ((generateQuestions r1 r2 (some 30)).drop 24).map pairOf :=
        List.mem_map_of_mem pairOf hq
      rw [List.map_drop, generateQuestions_map_pairOf, clampQuestions_30] at hx
      have hmin : (24 : Nat) = min 30 24 := by norm_num
      rw [hmin] at hx
      exact drawnPairs_drop_mem r1 r2 30 (pairOf q) hx

/-- C3 witness: with both oracles constantly 0 and a requested count of 2,
two records are produced with the expected ids and fresh answer state. -/
theorem C3_generateQuestions_complete_witness :
    ∀ q ∈ generateQuestions (fun _ => 0) (fun _ => 0) (some 2),
      q.correctPcs = triadPcs q.rootPc q.quality ∧
      q.userPcs = [none, none, none] ∧ q.marks = 0 :=
  C3_generateQuestions_complete.2.2.2.2.2 (fun _ => 0) (fun _ => 0) (some 2)

theorem filter_triple_length (p : Nat → Bool) :
    (List.filter p [0, 1, 2]).length =
      (if p 0 then 1 else 0) + (if p 1 then 1 else 0) + (if p 2 then 1 else 0) := by
  rcases hb0 : p 0 <;> rcases hb1 : p 1 <;> rcases hb2 : p 2 <;>
    simp [List.filter, hb0, hb1, hb2]

theorem markQuestion_triple (u0 u1 u2 : Option Int) (c0 c1 c2 : Int) :
    markQuestion [u0, u1, u2] [c0, c1, c2] =
      (if u0 = some c0 then 1 else 0) + (if u1 = some c1 then 1 else 0) +
        (if u2 = some c2 then 1 else 0) := by
  have h0 : (slotHit [u0, u1, u2] [c0, c1, c2] 0 = true) ↔ u0 = some c0 := by
    rcases u0 with _ | v <;> simp [slotHit]
  have h1 : (slotHit [u0, u1, u2] [c0, c1, c2] 1 = true) ↔ u1 = some c1 := by
    rcases u1 with _ | v <;> simp [slotHit]
  have h2 : (slotHit [u0, u1, u2] [c0, c1, c2] 2 = true) ↔ u2 = some c2 := by
    rcases u2 with _ | v <;> simp [slotHit]
  unfold markQuestion
  rw [show List.range 3 = [0, 1, 2] from rfl,
    filter_triple_length (fun i => slotHit [u0, u1, u2] [c0, c1, c2] i)]
  simp only [h0, h1, h2]

theorem markQuestion_le_three (u : List (Option Int)) (c : List Int) :
    markQuestion u c ≤ 3 := by
  calc markQuestion u c ≤ (List.range 3).length := List.length_filter_le _ _
  _ = 3 := by simp

/-- C2: scoring is order-sensitive per-slot exact matching — slot `i`
earns one mark iff `userPcs[i]` equals `correctPcs[i]` — so identical
triples score 3, all-absent scores 0, and a correct pitch class in a
wrong slot earns nothing for that slot; per-question marks are at most 3,
the total is the sum over the questions, the maximum is three per
question, and the percentage is `round(total/max*1000)/10`. -/
theorem C2_markAll_per_slot :
    (∀ (u0 u1 u2 : Option Int) (c0 c1 c2 : Int),
      markQuestion [u0, u1, u2] [c0, c1, c2] =
        (if u0 = some c0 then 1 else 0) + (if u1 = some c1 then 1 else 0) +
          (if u2 = some c2 then 1 else 0)) ∧
    (∀ c0 c1 c2 : Int,
      markQuestion [some c0, some c1, some c2] [c0, c1, c2] = 3) ∧
    (∀ c0 c1 c2 : Int, markQuestion [none, none, none] [c0, c1, c2] = 0) ∧
    (∀ (u : List (Option Int)) (c : List Int), markQuestion u c ≤ 3) ∧
    (∀ qs : List Question,
      (markAll qs).questions.map (fun q => q.marks) =
        qs.map (fun q => markQuestion q.userPcs q.correctPcs) ∧
      (markAll qs).total =
        (qs.map (fun q => markQuestion q.userPcs q.correctPcs)).sum ∧
      (markAll qs).maxMarks = qs.length * 3 ∧
      (markAll qs).percentage =
        ((round (((markAll qs).total : ℚ) / ((markAll qs).maxMarks : ℚ) * 1000) : ℤ) : ℚ)
          / 10) := by
  refine ⟨markQuestion_triple, ?_, ?_, markQuestion_le_three, ?_⟩
  · intro c0 c1 c2
    simp [markQuestion_triple]
  · intro c0 c1 c2
    simp [markQuestion_triple]
  · intro qs
    refine ⟨?_, ?_, rfl, rfl⟩
    · simp only [markAll, List.map_map]
      rfl
    · simp only [markAll, List.map_map]
      rfl

/-- C2 witness: a fully correct C-major answer scores 3. -/
theorem C2_markAll_per_slot_witness :
    markQuestion [some 0, some 4, some 7] [0, 4, 7] = 3 :=
  C2_markAll_per_slot.2.1 0 4 7

/-- C9: submitting when the session has not started, or has already been
submitted, is a no-op — the state (hence every question's marks) is
unchanged and the scoring engine does not run — and submitting twice
equals submitting once, so scoring runs at most once per session. -/
theorem C9_submit_guard :
    (∀ s : GameState, s.started = false → submitClick s = s) ∧
    (∀ s : GameState, s.submitted = true → submitClick s = s) ∧
    (∀ s : GameState, submitClick (submitClick s) = submitClick s) := by
  refine ⟨?_, ?_, ?_⟩
  · intro s hs
    simp [submitClick, hs]
  · intro s hs
    simp [submitClick, hs]
  · intro s
    by_cases hst : s.started
    · by_cases hsub : s.submitted
      · simp [submitClick, hst, hsub]
      · simp [submitClick, hst, hsub]
    · simp [submitClick, hst]

/-- C9 witness: submitting a fresh, unstarted session changes nothing. -/
theorem C9_submit_guard_witness :
    submitClick ⟨false, false, []⟩ = ⟨false, false, []⟩ :=
  C9_submit_guard.1 ⟨false, false, []⟩ rfl

theorem getStemForPc_isSome (pitch : Int) :
    getStemForPc (pcFromPitch pitch) =
      some ((getStemForPc (pcFromPitch pitch)).getD "") := by
  have h0 := pcFromPitch_nonneg pitch
  have h1 := pcFromPitch_lt_twelve pitch
  unfold getStemForPc
  have ht : (pcFromPitch pitch + 12).tmod 12 = pcFromPitch pitch := by
    rw [Int.tmod_eq_emod (by omega) (by norm_num)]
    omega
  rw [ht]
  interval_cases (pcFromPitch pitch) <;> rfl

theorem loadPitchBuffer_eq (avail : String → Bool) (pitch : Int) :
    loadPitchBuffer avail pitch =
      if avail (pitchUrl pitch) then
        { missingUrl := none, buffer := some (pitchUrl pitch) }
      else
        { missingUrl := some (pitchUrl pitch), buffer := none } := by
  unfold loadPitchBuffer
  rw [getStemForPc_isSome]
  rfl

theorem loadPitchBuffer_of_ok (avail : String → Bool) (p : Int)
    (hp : avail (pitchUrl p) = true) :
    loadPitchBuffer avail p = { missingUrl := none, buffer := some (pitchUrl p) } := by
  rw [loadPitchBuffer_eq]
  simp [hp]

theorem loadPitchBuffer_of_missing (avail : String → Bool) (p : Int)
    (hp : avail (pitchUrl p) = false) :
    loadPitchBuffer avail p = { missingUrl := some (pitchUrl p), buffer := none } := by
  rw [loadPitchBuffer_eq]
  simp [hp]

theorem find?_missing_none_of_ok (avail : String → Bool) (l : List Int)
    (hl : ∀ p ∈ l, avail (pitchUrl p) = true) :
    List.find? (fun r => r.missingUrl.isSome)
      (List.map (loadPitchBuffer avail) l) = none := by
  rw [List.find?_eq_none]
  intro r hr
  rw [List.mem_map] at hr
  obtain ⟨p, hp, rfl⟩ := hr
  rw [loadPitchBuffer_of_ok avail p (hl p hp)]
  simp

theorem buffers_of_ok (avail : String → Bool) (l : List Int)
    (hl : ∀ p ∈ l, avail (pitchUrl p) = true) :
    List.filterMap (fun r => r.buffer) (List.map (loadPitchBuffer avail) l) =
      List.map pitchUrl l := by
  induction l with
  | nil => rfl
  | cons a t ih =>
    have ha := hl a (List.mem_cons_self a t)
    rw [List.map_cons, List.filterMap_cons, loadPitchBuffer_of_ok avail a ha,
      ih (fun p hp => hl p (List.mem_cons_of_mem a hp)), List.map_cons]

/-- C8: chord playback is all-or-nothing.  If any requested pitch's sample
is unavailable, the user is alerted with a message naming that missing
resource and no voice is scheduled; only when every sample resolves are
all the voices scheduled (one per requested pitch, in order). -/
theorem C8_playPitchesWindowed_all_or_nothing :
    (∀ (avail : String → Bool) (pitches : List Int),
      (∃ p ∈ pitches, avail (pitchUrl p) = false) →
      (playPitchesWindowed avail pitches).scheduled = [] ∧
      (playPitchesWindowed avail pitches).returned = false ∧
      (∃ p ∈ pitches, avail (pitchUrl p) = false ∧
        (playPitchesWindowed avail pitches).alerted =
          some ("Missing audio sample: " ++ pitchUrl p))) ∧
    (∀ (avail : String → Bool) (pitches : List Int),
      (∀ p ∈ pitches, avail (pitchUrl p) = true) →
      (playPitchesWindowed avail pitches).alerted = none ∧
      (playPitchesWindowed avail pitches).scheduled = pitches.map pitchUrl) := by
  constructor
  · intro avail pitches
    induction pitches with
    | nil => rintro ⟨p, hp, _⟩; cases hp
    | cons a l ih =>
      rintro ⟨p, hp, hmiss⟩
      rcases ha : avail (pitchUrl a) with _ | _
      · have hout : playPitchesWindowed avail (a :: l) =
            { alerted := some ("Missing audio sample: " ++ pitchUrl a)
              scheduled := []
              returned := false } := by
          unfold playPitchesWindowed
          dsimp only
          rw [List.map_cons, loadPitchBuffer_of_missing avail a ha,
            List.find?_cons_of_pos _ (by simp)]
          rfl
        exact ⟨by rw [hout], by rw [hout],
          a, List.mem_cons_self a l, ha, by rw [hout]⟩
      · have hpl : p ∈ l := by
          rcases List.mem_cons.mp hp with rfl | h
          · rw [ha] at hmiss
            cases hmiss
          · exact h
        have hsome : ∃ r, List.find? (fun r => r.missingUrl.isSome)
            (List.map (loadPitchBuffer avail) l) = some r := by
          apply Option.isSome_iff_exists.mp
          rw [List.find?_isSome]
          refine ⟨loadPitchBuffer avail p, List.mem_map_of_mem _ hpl, ?_⟩
          rw [loadPitchBuffer_of_missing avail p hmiss]
          simp
        obtain ⟨r, hr⟩ := hsome
        have hstep : playPitchesWindowed avail (a :: l) =
            playPitchesWindowed avail l := by
          unfold playPitchesWindowed
          dsimp only
          rw [List.map_cons, loadPitchBuffer_of_ok avail a ha,
            List.find?_cons_of_neg _ (by simp), hr]
        rw [hstep]
        obtain ⟨hsched, hret, q, hq, hqa, halert⟩ := ih ⟨p, hpl, hmiss⟩
        exact ⟨hsched, hret, q, List.mem_cons_of_mem a hq, hqa, halert⟩
  · intro avail pitches hall
    have hnone := find?_missing_none_of_ok avail pitches hall
    have hbufs := buffers_of_ok avail pitches hall
    have hout : playPitchesWindowed avail pitches =
        (if (pitches.map pitchUrl).isEmpty then
          { alerted := none, scheduled := [], returned := false }
        else
          { alerted := none, scheduled := pitches.map pitchUrl
            returned := true }) := by
      unfold playPitchesWindowed
      dsimp only
      rw [hnone]
      dsimp only
      rw [hbufs]
    rcases pitches with _ | ⟨a, l⟩
    · exact ⟨by rw [hout]; rfl, by rw [hout]; rfl⟩
    · rw [hout, List.map_cons, List.isEmpty_cons]
      exact ⟨rfl, rfl⟩

/-- C8 witness: requesting middle C with its sample unavailable alerts
with the sample path and schedules nothing. -/
theorem C8_playPitchesWindowed_all_or_nothing_witness :
    (playPitchesWindowed (fun _ => false) [48]).scheduled = [] := by
  have h := C8_playPitchesWindowed_all_or_nothing.1 (fun _ => false) [48]
    ⟨48, by simp, rfl⟩
  exact h.1

end MMQuiz
